import Mathlib

/-!
Verification of the analysis snippets of the mesoscale-modeling workshop
notebooks.  The notebooks delegate all physics to an external simulation
engine; the repository's own code consists of short numerical analysis
fragments (histogramming, block averaging, unwrapping periodic coordinates,
averaging, a one-parameter line fit, and a bond filter used for rendering).
Each fragment is embedded below as an executable Lean definition over exact
rational arithmetic (real-number square roots appear only where the source
takes a square root), and the stated properties are proved about these
definitions.  The external engine is modelled as an abstract state-transition
function passed as a parameter wherever the notebooks call `simulation.run`.
-/

/-- Points and vectors of the simulations are 3-component rows; we embed them
as triples of rationals (exact arithmetic for the analysis code). -/
abbrev Vec3 := ℚ × ℚ × ℚ

/-- Componentwise sum of two 3-vectors (`numpy` elementwise `+`). -/
def addV3 (a b : Vec3) : Vec3 := (a.1 + b.1, a.2.1 + b.2.1, a.2.2 + b.2.2)

/-- Componentwise difference of two 3-vectors (`numpy` elementwise `-`). -/
def subV3 (a b : Vec3) : Vec3 := (a.1 - b.1, a.2.1 - b.2.1, a.2.2 - b.2.2)

/-- Sum of squared components of a 3-vector, i.e. the squared Euclidean
norm computed by `numpy.sum(v**2, axis=1)` for one row. -/
def sumSqV3 (v : Vec3) : ℚ := v.1 ^ 2 + v.2.1 ^ 2 + v.2.2 ^ 2

/-- Arithmetic mean of a list of rationals (`numpy.mean`); the empty mean is
0 by the Lean convention for division by zero. -/
def meanQ (xs : List ℚ) : ℚ := xs.sum / (xs.length : ℚ)

/-- Componentwise mean of a list of 3-vectors (`numpy.mean(-, axis=0)`). -/
def meanV3 (ps : List Vec3) : Vec3 :=
  (meanQ (ps.map (fun p => p.1)), meanQ (ps.map (fun p => p.2.1)),
    meanQ (ps.map (fun p => p.2.2)))

/-- Componentwise sum of a list of 3-vectors. -/
def sumV3 (ps : List Vec3) : Vec3 := ps.foldl addV3 (0, 0, 0)

/-!
Fragment from the pressure-driven-flow notebook: the one-parameter model
function fitted to the velocity-gradient data, with the notebook's constants.
-/

/-- Number density of the MPCD fluid set in the notebook (`density = 5`). -/
def density : ℚ := 5

/-- Body force on each MPCD particle set in the notebook (`fx = 0.004`). -/
def fx : ℚ := 4 / 1000

/-- The model fitted by `scipy.optimize.curve_fit`:
`def line(y, mu): return -(density * fx / mu) * y`.  `y` is the independent
variable and `mu` is the single fitting parameter. -/
def line (y mu : ℚ) : ℚ := -(density * fx / mu) * y

/-!
Fragment from the molecular-dynamics notebook's energy-conservation analysis:
`dev = tot_e - np.mean(tot_e)` and `yval = np.sqrt(dev**2) / np.mean(tot_e)`,
computed elementwise over the loaded total-energy series.
-/

/-- The plotted series `yval = np.sqrt((tot_e - np.mean(tot_e))**2) / np.mean(tot_e)`,
elementwise over the total-energy series; the square root is the real one. -/
noncomputable def yval (totE : List ℚ) : List ℝ :=
  totE.map (fun e =>
    Real.sqrt (((e : ℝ) - (meanQ totE : ℝ)) ^ 2) / (meanQ totE : ℝ))

/-!
Fragment from the MPCD-intro notebook's initialization:
`velocity -= numpy.mean(velocity, axis=0)` removes the centre-of-mass motion
from the randomly drawn velocities before they are stored in the snapshot.
-/

/-- The velocities assigned to the snapshot: the drawn velocities with the
componentwise mean subtracted from every row. -/
def zeroMeanVelocity (v : List Vec3) : List Vec3 :=
  v.map (fun x => subV3 x (meanV3 v))

/-!
Fragments from the MPCD notebooks' measurement loops.  The engine call
`simulation.run(k)` is modelled by an abstract parameter
`runSim : ℕ → S → S` on an abstract state type `S`, and reading data out of
`simulation.state.get_snapshot()` by abstract projections (`posOf`,
`boxOf`, `velOf`).  The repository's own loop code is embedded exactly:
state is threaded only through the engine calls, and the observations are
accumulated into lists.
-/

/-- Minimum-image wrap of a displacement coordinate into `[-L/2, L/2)`
(`freud.box.Box.wrap` for an orthorhombic box). -/
def wrapPBC (L x : ℚ) : ℚ := x - L * (⌊x / L + 1 / 2⌋ : ℤ)

/-- Componentwise minimum-image wrap of a displacement vector. -/
def wrapV3 (box : Vec3) (v : Vec3) : Vec3 :=
  (wrapPBC box.1 v.1, wrapPBC box.2.1 v.2.1, wrapPBC box.2.2 v.2.2)

/-- The mean squared displacement computed in the diffusion loop:
`numpy.mean(numpy.sum(box.wrap(r - r0)**2, axis=1))`. -/
def msdQ (box : Vec3) (r r0 : List Vec3) : ℚ :=
  meanQ ((List.zipWith subV3 r r0).map (fun d => sumSqV3 (wrapV3 box d)))

/-- One sampling period of the diffusion loop advances the engine by the
wait steps and then the sample steps. -/
def sampleAdvance {S : Type} (runSim : ℕ → S → S) (waitSteps sampleSteps : ℕ)
    (s : S) : S :=
  runSim sampleSteps (runSim waitSteps s)

/-- The diffusion-coefficient sampling loop of the MPCD-intro notebook.  Each
iteration records `r0` from the current snapshot, runs the engine for the
wait time, measures `msd1`, runs for the sample time, measures `msd2`, and
appends `(msd2 - msd1) / (6 * sample_time)` to `D`. -/
def diffusionLoop {S : Type} (runSim : ℕ → S → S) (posOf : S → List Vec3)
    (boxOf : S → Vec3) (num_samples waitSteps sampleSteps : ℕ)
    (sample_time : ℚ) (s0 : S) : S × List ℚ :=
  (List.range num_samples).foldl
    (fun st _ =>
      let r0 := posOf st.1
      let s1 := runSim waitSteps st.1
      let msd1 := msdQ (boxOf s1) (posOf s1) r0
      let s2 := runSim sampleSteps s1
      let msd2 := msdQ (boxOf s2) (posOf s2) r0
      (s2, st.2 ++ [(msd2 - msd1) / (6 * sample_time)]))
    (s0, [])

/-- The reported diffusion coefficient `D_sim = numpy.mean(D)`. -/
def D_sim {S : Type} (runSim : ℕ → S → S) (posOf : S → List Vec3)
    (boxOf : S → Vec3) (num_samples waitSteps sampleSteps : ℕ)
    (sample_time : ℚ) (s0 : S) : ℚ :=
  meanQ (diffusionLoop runSim posOf boxOf num_samples waitSteps sampleSteps
    sample_time s0).2

/-- The velocity-field sample read from the compute after `i + 1` engine
runs of the production loop. -/
def sampleAt {S : Type} (runStep : S → S) (velOf : S → List Vec3) (s0 : S)
    (i : ℕ) : List Vec3 :=
  velOf (runStep^[i + 1] s0)

/-- The production sampling loop of the pressure-driven-flow notebook: each
iteration runs the engine, on the first iteration sizes the accumulator as
`numpy.zeros(velocity_field.velocities.shape)`, adds the current sample, and
at the end divides by `num_samples`. -/
def avgVelocityLoop {S : Type} (runStep : S → S) (velOf : S → List Vec3)
    (num_samples : ℕ) (s0 : S) : S × List Vec3 :=
  let r := (List.range num_samples).foldl
    (fun st i =>
      let s := runStep st.1
      let sample := velOf s
      (s, if i = 0 then
            List.zipWith addV3 (List.replicate sample.length ((0 : ℚ), (0 : ℚ), (0 : ℚ))) sample
          else List.zipWith addV3 st.2 sample))
    (s0, [])
  (r.1, r.2.map (fun x =>
    (x.1 / (num_samples : ℚ), x.2.1 / (num_samples : ℚ), x.2.2 / (num_samples : ℚ))))

/-- The per-sample value the claim states for the diffusion loop: the
difference of the two mean squared wrapped displacements from the positions
recorded at the start of the sample, divided by `6 * sample_time`. -/
def specDiffusionSample {S : Type} (runSim : ℕ → S → S) (posOf : S → List Vec3)
    (boxOf : S → Vec3) (waitSteps sampleSteps : ℕ) (sample_time : ℚ) (s0 : S)
    (i : ℕ) : ℚ :=
  let si := (sampleAdvance runSim waitSteps sampleSteps)^[i] s0
  let s1 := runSim waitSteps si
  let s2 := runSim sampleSteps s1
  (msdQ (boxOf s2) (posOf s2) (posOf si) - msdQ (boxOf s1) (posOf s1) (posOf si)) /
    (6 * sample_time)

/-- The elementwise running sum of the first `n` velocity-field samples,
accumulated from a zero array shaped like the first sample. -/
def specVelSum {S : Type} (runStep : S → S) (velOf : S → List Vec3) (s0 : S)
    (n : ℕ) : List Vec3 :=
  (List.range n).foldl
    (fun acc i => List.zipWith addV3 acc (sampleAt runStep velOf s0 i))
    (List.replicate (sampleAt runStep velOf s0 0).length ((0 : ℚ), (0 : ℚ), (0 : ℚ)))

/-!
Fragment from the `render` function of the structure notebook: when the
frame has bonds, the endpoints of every bond are gathered from the stored
particle positions, the Euclidean lengths
`numpy.linalg.norm(all_bonds[:,0,:] - all_bonds[:,1,:], axis=1)` are
computed, and only bonds with length strictly below `L/2` (`L` the first box
dimension) are passed to the cylinder geometry; the others are dropped.
The strict comparison `‖p_i - p_j‖ < L/2` is embedded through the
equivalent comparison of the squared length with `(L/2)^2` so that the
filter stays executable; the claim's theorem proves the two agree for every
positive `L`.
-/

/-- Squared Euclidean distance between two stored positions. -/
def sqDistE (a b : Vec3) : ℚ := sumSqV3 (subV3 a b)

/-- The bond filter of `render`: keep a bond exactly when its endpoint
distance is strictly below `L/2`. -/
def bondKept (L : ℚ) (positions : List Vec3) (b : ℕ × ℕ) : Bool :=
  decide (sqDistE (positions.getD b.1 ((0 : ℚ), (0 : ℚ), (0 : ℚ)))
      (positions.getD b.2 ((0 : ℚ), (0 : ℚ), (0 : ℚ))) < (L / 2) ^ 2)

/-- The `filtered_bonds` array passed to `fresnel.geometry.Cylinder`. -/
def filtered_bonds (L : ℚ) (positions : List Vec3) (bonds : List (ℕ × ℕ)) :
    List (ℕ × ℕ) :=
  bonds.filter (bondKept L positions)

/-- The Euclidean length of a bond, as computed by `numpy.linalg.norm` on
its endpoint difference. -/
noncomputable def bondLength (positions : List Vec3) (b : ℕ × ℕ) : ℝ :=
  Real.sqrt ((sqDistE (positions.getD b.1 ((0 : ℚ), (0 : ℚ), (0 : ℚ)))
      (positions.getD b.2 ((0 : ℚ), (0 : ℚ), (0 : ℚ))) : ℚ) : ℝ)

/-!
Fragment from the Langevin-dynamics notebook:

```
def block_average(data, num_blocks=3):
    traj_length = len(data)
    block_size = traj_length // num_blocks
    blocks = data[:num_blocks * block_size].reshape((num_blocks, block_size))
    block_means = np.mean(blocks, axis=1)
    mean = np.mean(block_means)
    std_error = np.std(block_means, ddof=1) / np.sqrt(num_blocks)
    return mean, std_error
```
-/

/-- Semantics of `reshape((count, size))` on a flat buffer: cut off `count`
consecutive rows of `size` entries from the front. -/
def reshapeRows (size : ℕ) : ℕ → List ℚ → List (List ℚ)
  | 0, _ => []
  | count + 1, l => l.take size :: reshapeRows size count (l.drop size)

/-- Squared sample standard deviation with `ddof = 1` (the quantity under the
square root in `np.std(xs, ddof=1)`). -/
def sampleVarQ (xs : List ℚ) : ℚ :=
  (xs.map (fun x => (x - meanQ xs) ^ 2)).sum / ((xs.length : ℚ) - 1)

/-- The notebook's `block_average`: the mean of the block means together with
`np.std(block_means, ddof=1) / np.sqrt(num_blocks)`. -/
noncomputable def block_average (data : List ℚ) (num_blocks : ℕ) : ℚ × ℝ :=
  let block_size := data.length / num_blocks
  let blocks := reshapeRows block_size num_blocks (data.take (num_blocks * block_size))
  let block_means := blocks.map meanQ
  (meanQ block_means,
    Real.sqrt ((sampleVarQ block_means : ℚ) : ℝ) / Real.sqrt ((num_blocks : ℕ) : ℝ))

/-- The blocks the claim describes: for each `j < num_blocks` the `j`-th
consecutive block of `size` elements taken from the front of the data. -/
def specBlocks (data : List ℚ) (num_blocks size : ℕ) : List (List ℚ) :=
  (List.range num_blocks).map (fun j => (data.drop (j * size)).take size)

/-!
Radial-distribution-function code of the structure notebook.  The notebook
cell is a teaching template whose bodies are elided (`bins = ...`,
`d = ...`, the body of `norm`, ...); the definitions below are modelled
from the spec and the template's fixed skeleton: bins are
`numpy.linspace(0, rmax, number_of_bins + 1)`, the histogram is initialized
with `numpy.histogram(0, bins)`, each particle of `A` contributes the
histogram of its minimum-image distances to all particles of `B`, the
result is normalized by `norm(Box, N, r)` evaluated at the bin centres, and
the first entry is set to 0.  The body of `norm` is elided entirely, so the
normalization is kept as an abstract function parameter `nf`.  Distance
binning is embedded through the equivalent comparison of squared distances
with squared bin edges so the histogram stays executable; the claim's
theorem proves this agrees with binning the true distances.
-/

/-- Modelled from the spec: squared minimum-image distance between two
points in the periodic box (the square of `dist_pbc`). -/
def distSqPBC (Box : Vec3) (a b : Vec3) : ℚ := sumSqV3 (wrapV3 Box (subV3 a b))

/-- Edge `k` of `numpy.linspace(0, rmax, number_of_bins + 1)`. -/
def binEdge (number_of_bins : ℕ) (rmax : ℚ) (k : ℕ) : ℚ :=
  (k : ℚ) * rmax / (number_of_bins : ℚ)

/-- Membership of a squared value in histogram bin `k` (`numpy.histogram`
semantics: half-open bins, the last bin closed on the right). -/
def inBinSq (n : ℕ) (rmax : ℚ) (k : ℕ) (s : ℚ) : Bool :=
  decide ((binEdge n rmax k) ^ 2 ≤ s ∧
    (if k + 1 = n then s ≤ (binEdge n rmax (k + 1)) ^ 2
     else s < (binEdge n rmax (k + 1)) ^ 2))

/-- Histogram of a list of squared distances over the `n` bins. -/
def histSq (n : ℕ) (rmax : ℚ) (svals : List ℚ) : List ℕ :=
  (List.range n).map (fun k => svals.countP (inBinSq n rmax k))

/-- Modelled from the spec: `pair_corr(A, B, Box, number_of_bins, rmax)`
with the elided normalization `norm` abstracted as `nf`; returns the bin
centres and the accumulated, normalized histogram with its first entry set
to 0. -/
def pair_corr (A B : List Vec3) (Box : Vec3) (number_of_bins : ℕ)
    (rmax : ℚ) (nf : ℚ → ℚ) : List ℚ × List ℚ :=
  let histInit := histSq number_of_bins rmax [0]
  let hist_all := A.foldl
    (fun h a => List.zipWith (fun x y => x + y) h
      (histSq number_of_bins rmax (B.map (fun b => distSqPBC Box a b))))
    histInit
  let bincenters := (List.range number_of_bins).map
    (fun k => (binEdge number_of_bins rmax k + binEdge number_of_bins rmax (k + 1)) / 2)
  let normalized := (List.range number_of_bins).map
    (fun k => if k = 0 then 0
      else (hist_all.getD k 0 : ℚ) / nf (bincenters.getD k 0))
  (bincenters, normalized)

/-- The true minimum-image distance between two points, as the claim
speaks of it. -/
noncomputable def minImageDist (Box : Vec3) (a b : Vec3) : ℝ :=
  Real.sqrt ((distSqPBC Box a b : ℚ) : ℝ)

/-- Membership of a real distance in bin `k`, following the claim's words:
`number_of_bins` equal-width bins on `[0, rmax]`, half-open except the
closed last one. -/
def inBinDist (n : ℕ) (rmax : ℚ) (k : ℕ) (d : ℝ) : Prop :=
  ((binEdge n rmax k : ℚ) : ℝ) ≤ d ∧
    (if k + 1 = n then d ≤ ((binEdge n rmax (k + 1) : ℚ) : ℝ)
     else d < ((binEdge n rmax (k + 1) : ℚ) : ℝ))

/-- All pairs `(a, b)` with `a` in `A` and `b` in `B`. -/
def allPairs (A B : List Vec3) : List (Vec3 × Vec3) :=
  A.flatMap (fun a => B.map (fun b => (a, b)))

open Classical in
/-- The number of pairs of `A × B` whose minimum-image distance lies in
bin `k`. -/
noncomputable def pairBinCount (A B : List Vec3) (Box : Vec3) (n : ℕ)
    (rmax : ℚ) (k : ℕ) : ℕ :=
  (allPairs A B).countP
    (fun p => decide (inBinDist n rmax k (minImageDist Box p.1 p.2)))

/-!
Radius-of-gyration analysis of the structure notebook.  The notebook cell is
a teaching template whose assignments are elided (`unwrapped_positions = ...`
etc.); the definitions below are modelled from the spec and the cell's
accompanying instructions: unwrap each position by adding
`image * box[0:3]`, split the unwrapped positions into polymers, take the
centre of mass of each polymer with `numpy.mean`, collect
`Rg2 = numpy.average(numpy.sum((p - com)**2, axis=1))` for every polymer of
every frame, and finally report `av_Rg = numpy.sqrt(numpy.mean(rg2))`.
-/

/-- Modelled from the spec: one trajectory frame, already split into
polymers; each monomer carries its stored position and its integer image
flags, and the frame carries the box lengths.  The template's
`numpy.split` at the bond breaks produces exactly such a list of polymers. -/
structure PolyFrame where
  box : Vec3
  polymers : List (List (Vec3 × (ℤ × ℤ × ℤ)))

/-- Modelled from the spec: the unwrapped position
`position + image * box[0:3]` of one monomer. -/
def unwrap (box : Vec3) (m : Vec3 × (ℤ × ℤ × ℤ)) : Vec3 :=
  (m.1.1 + (m.2.1 : ℚ) * box.1,
   m.1.2.1 + (m.2.2.1 : ℚ) * box.2.1,
   m.1.2.2 + (m.2.2.2 : ℚ) * box.2.2)

/-- Modelled from the spec: the per-polymer sample
`Rg2 = numpy.average(numpy.sum((p - com)**2, axis=1))` with
`com = numpy.mean(p, axis=0)` over the unwrapped positions `p`. -/
def Rg2sample (box : Vec3) (poly : List (Vec3 × (ℤ × ℤ × ℤ))) : ℚ :=
  let u := poly.map (unwrap box)
  let c := meanV3 u
  meanQ (u.map (fun x => sumSqV3 (subV3 x c)))

/-- Modelled from the spec: the trajectory loop appending the `Rg2` of every
polymer of every frame to the running list `rg2`. -/
def rg2List (traj : List PolyFrame) : List ℚ :=
  traj.foldl
    (fun acc f => f.polymers.foldl (fun acc2 p => acc2 ++ [Rg2sample f.box p]) acc)
    []

/-- Modelled from the spec: the reported
`av_Rg = numpy.sqrt(numpy.mean(rg2))`. -/
noncomputable def av_Rg (traj : List PolyFrame) : ℝ :=
  Real.sqrt ((meanQ (rg2List traj) : ℚ) : ℝ)

/-- The quantity the claim states for one polymer: the mean over its
monomers of the squared Euclidean distance from the monomer's unwrapped
position to the polymer's centre of mass, the coordinate-wise mean of the
unwrapped positions. -/
def specRg2 (box : Vec3) (poly : List (Vec3 × (ℤ × ℤ × ℤ))) : ℚ :=
  meanQ (poly.map (fun m =>
    sqDistE (unwrap box m) (meanV3 (poly.map (unwrap box)))))

/-- A fold over `List.range` that ignores the element is an iterate. -/
lemma foldl_range_const {α : Type} (f : α → α) (n : ℕ) (a : α) :
    (List.range n).foldl (fun x _ => f x) a = f^[n] a := by
  induction n with
  | zero => simp
  | succ m ih =>
      rw [List.range_succ, List.foldl_append, ih, List.foldl_cons, List.foldl_nil,
        Function.iterate_succ_apply']

/-- The first component of a pair-valued fold whose first component ignores
the second is itself a fold. -/
lemma foldl_fst {α β γ : Type} (f : α → γ → α) (g : α × β → γ → β)
    (l : List γ) (p : α × β) :
    (l.foldl (fun st c => (f st.1 c, g st c)) p).1 = l.foldl f p.1 := by
  induction l generalizing p with
  | nil => rfl
  | cons c cs ih => simp only [List.foldl_cons, ih]

/-- Closed form of the diffusion loop: the state is the pure engine iterate
and the collected samples are the spec values in order. -/
lemma diffusionLoop_closed {S : Type} (runSim : ℕ → S → S)
    (posOf : S → List Vec3) (boxOf : S → Vec3)
    (n waitSteps sampleSteps : ℕ) (sample_time : ℚ) (s0 : S) :
    diffusionLoop runSim posOf boxOf n waitSteps sampleSteps sample_time s0 =
      ((sampleAdvance runSim waitSteps sampleSteps)^[n] s0,
        (List.range n).map
          (specDiffusionSample runSim posOf boxOf waitSteps sampleSteps sample_time s0)) := by
  induction n with
  | zero => simp [diffusionLoop]
  | succ m ih =>
      unfold diffusionLoop at ih ⊢
      rw [List.range_succ, List.foldl_append, ih, List.foldl_cons, List.foldl_nil,
        List.map_append]
      refine Prod.ext ?_ ?_
      · simp [Function.iterate_succ_apply', sampleAdvance]
      · simp [specDiffusionSample, sampleAdvance, Function.iterate_succ_apply']

/-- Element of a vector list after `f` at index `j`, for `j` in range. -/
lemma getD_map_vec (l : List Vec3) (f : Vec3 → Vec3) (j : ℕ) (hj : j < l.length) :
    (l.map f).getD j ((0 : ℚ), (0 : ℚ), (0 : ℚ)) =
      f (l.getD j ((0 : ℚ), (0 : ℚ), (0 : ℚ))) := by
  induction l generalizing j with
  | nil => simp at hj
  | cons x xs ih =>
      cases j with
      | zero => rfl
      | succ k =>
          simp only [List.map_cons, List.getD_cons_succ]
          exact ih k (by simpa using hj)

/-- Entrywise reading of an elementwise sum of two vector lists. -/
lemma getD_zipWith_addV3 (a b : List Vec3) (j : ℕ) (hja : j < a.length)
    (hjb : j < b.length) :
    (List.zipWith addV3 a b).getD j ((0 : ℚ), (0 : ℚ), (0 : ℚ)) =
      addV3 (a.getD j ((0 : ℚ), (0 : ℚ), (0 : ℚ)))
        (b.getD j ((0 : ℚ), (0 : ℚ), (0 : ℚ))) := by
  induction a generalizing b j with
  | nil => simp at hja
  | cons x xs ih =>
      cases b with
      | nil => simp at hjb
      | cons y ys =>
          cases j with
          | zero => rfl
          | succ k =>
              simp only [List.zipWith_cons_cons, List.getD_cons_succ]
              exact ih ys k (by simpa using hja) (by simpa using hjb)

/-- Appending one vector to a componentwise sum adds it on the right. -/
lemma sumV3_append_singleton (l : List Vec3) (x : Vec3) :
    sumV3 (l ++ [x]) = addV3 (sumV3 l) x := by
  unfold sumV3
  rw [List.foldl_append]
  rfl

/-- Reading any in-range entry of a constant list gives the constant. -/
lemma getD_replicate_vec (n j : ℕ) (z d : Vec3) (hj : j < n) :
    (List.replicate n z).getD j d = z := by
  induction n generalizing j with
  | zero => simp at hj
  | succ m ih =>
      cases j with
      | zero => rfl
      | succ k =>
          simp only [List.replicate_succ, List.getD_cons_succ]
          exact ih k (by simpa using hj)

/-- Length invariant of the running sum when all samples share the shape of
the first one. -/
lemma specVelSum_length {S : Type} (runStep : S → S) (velOf : S → List Vec3)
    (s0 : S) (n : ℕ)
    (hlen : ∀ i < n, (sampleAt runStep velOf s0 i).length =
      (sampleAt runStep velOf s0 0).length) :
    (specVelSum runStep velOf s0 n).length =
      (sampleAt runStep velOf s0 0).length := by
  induction n with
  | zero => simp [specVelSum]
  | succ m ih =>
      unfold specVelSum at ih ⊢
      rw [List.range_succ, List.foldl_append, List.foldl_cons, List.foldl_nil,
        List.length_zipWith, ih (fun i hi => hlen i (Nat.lt_succ_of_lt hi)),
        hlen m (Nat.lt_succ_self m), Nat.min_self]

/-- Entrywise closed form of the running sum. -/
lemma specVelSum_getD {S : Type} (runStep : S → S) (velOf : S → List Vec3)
    (s0 : S) (n j : ℕ)
    (hlen : ∀ i < n, (sampleAt runStep velOf s0 i).length =
      (sampleAt runStep velOf s0 0).length)
    (hj : j < (sampleAt runStep velOf s0 0).length) :
    (specVelSum runStep velOf s0 n).getD j ((0 : ℚ), (0 : ℚ), (0 : ℚ)) =
      sumV3 ((List.range n).map
        (fun i => (sampleAt runStep velOf s0 i).getD j ((0 : ℚ), (0 : ℚ), (0 : ℚ)))) := by
  induction n with
  | zero =>
      simp only [specVelSum, List.range_zero, List.foldl_nil, List.map_nil]
      rw [getD_replicate_vec _ _ _ _ hj]
      rfl
  | succ m ih =>
      have hm : ∀ i < m, (sampleAt runStep velOf s0 i).length =
          (sampleAt runStep velOf s0 0).length :=
        fun i hi => hlen i (Nat.lt_succ_of_lt hi)
      have step : specVelSum runStep velOf s0 (m + 1) =
          List.zipWith addV3 (specVelSum runStep velOf s0 m)
            (sampleAt runStep velOf s0 m) := by
        unfold specVelSum
        rw [List.range_succ, List.foldl_append, List.foldl_cons, List.foldl_nil]
      rw [step, getD_zipWith_addV3 _ _ j
        (by rw [specVelSum_length runStep velOf s0 m hm]; exact hj)
        (by rw [hlen m (Nat.lt_succ_self m)]; exact hj),
        ih hm, List.range_succ, List.map_append, List.map_cons, List.map_nil,
        sumV3_append_singleton]

/-- Closed form of the production sampling loop for `n ≥ 1`: the state is the
pure engine iterate and the accumulator is the elementwise sum of the
samples, seeded with a zero array of the first sample's shape. -/
lemma avgVelocityLoop_closed {S : Type} (runStep : S → S)
    (velOf : S → List Vec3) (n : ℕ) (hn : 1 ≤ n) (s0 : S) :
    (List.range n).foldl
      (fun st i =>
        let s := runStep st.1
        let sample := velOf s
        (s, if i = 0 then
              List.zipWith addV3
                (List.replicate sample.length ((0 : ℚ), (0 : ℚ), (0 : ℚ))) sample
            else List.zipWith addV3 st.2 sample))
      (s0, []) =
      (runStep^[n] s0, specVelSum runStep velOf s0 n) := by
  induction n, hn using Nat.le_induction with
  | base =>
      have h1 : List.range 1 = [0] := by decide
      rw [h1]
      simp only [List.foldl_cons, List.foldl_nil]
      refine Prod.ext rfl ?_
      simp [specVelSum, sampleAt, h1]
  | succ m hm ih =>
      rw [List.range_succ, List.foldl_append, ih, List.foldl_cons, List.foldl_nil]
      have hm0 : m ≠ 0 := Nat.one_le_iff_ne_zero.mp hm
      refine Prod.ext ?_ ?_
      · simp [Function.iterate_succ_apply']
      · simp only [hm0, if_false]
        have step : specVelSum runStep velOf s0 (m + 1) =
            List.zipWith addV3 (specVelSum runStep velOf s0 m)
              (sampleAt runStep velOf s0 m) := by
          unfold specVelSum
          rw [List.range_succ, List.foldl_append, List.foldl_cons, List.foldl_nil]
        rw [step]
        simp [sampleAt, Function.iterate_succ_apply']

/-- Reshaping a flat buffer into rows reads consecutive segments. -/
lemma reshapeRows_eq_spec (size count : ℕ) (l : List ℚ) :
    reshapeRows size count l = specBlocks l count size := by
  induction count generalizing l with
  | zero => rfl
  | succ m ih =>
      unfold reshapeRows
      rw [ih]
      unfold specBlocks
      rw [List.range_succ_eq_map, List.map_cons, List.map_map]
      simp only [Nat.zero_mul, List.drop_zero]
      congr 1
      refine List.map_congr_left (fun j _ => ?_)
      simp only [Function.comp]
      rw [List.drop_drop]
      congr 1
      simp [Nat.succ_eq_add_one, Nat.mul_add, Nat.add_mul, Nat.mul_comm, Nat.add_comm]

/-- Segments entirely inside the front `count * size` prefix do not see the
truncation. -/
lemma specBlocks_take (data : List ℚ) (count size : ℕ) :
    specBlocks (data.take (count * size)) count size = specBlocks data count size := by
  unfold specBlocks
  refine List.map_congr_left (fun j hj => ?_)
  have hjc : j < count := List.mem_range.mp hj
  rw [List.drop_take]
  have hle : size ≤ count * size - j * size := by
    refine Nat.le_sub_of_add_le ?_
    calc size + j * size = (j + 1) * size := by ring
      _ ≤ count * size := Nat.mul_le_mul_right size hjc
  rw [List.take_take, Nat.min_eq_left hle]

/-- Reading an in-range entry of a mapped list applies the function to the
corresponding entry. -/
lemma getD_map_gen {α β : Type} (l : List α) (f : α → β) (j : ℕ)
    (hj : j < l.length) (d : β) (d0 : α) :
    (l.map f).getD j d = f (l.getD j d0) := by
  rw [List.getD_eq_getElem (l.map f) d (by simpa using hj),
    List.getD_eq_getElem l d0 hj]
  simp

/-- Reading an in-range entry of `List.range`. -/
lemma getD_range_nat (n j : ℕ) (hj : j < n) (d : ℕ) :
    (List.range n).getD j d = j := by
  rw [List.getD_eq_getElem (List.range n) d (by simpa using hj)]
  simp

/-- Reading an in-range entry of an elementwise sum of two count lists. -/
lemma getD_zipWith_nat (a b : List ℕ) (j : ℕ) (hja : j < a.length)
    (hjb : j < b.length) :
    (List.zipWith (fun x y => x + y) a b).getD j 0 = a.getD j 0 + b.getD j 0 := by
  rw [List.getD_eq_getElem (List.zipWith _ a b) 0
      (by rw [List.length_zipWith]; omega),
    List.getD_eq_getElem a 0 hja, List.getD_eq_getElem b 0 hjb]
  simp

/-- Counting with pointwise equal predicates gives equal counts. -/
lemma countP_congr_eq {α : Type} (l : List α) (p q : α → Bool)
    (h : ∀ a ∈ l, p a = q a) : l.countP p = l.countP q := by
  induction l with
  | nil => rfl
  | cons x xs ih =>
      rw [List.countP_cons, List.countP_cons, h x (List.mem_cons_self x xs),
        ih (fun a ha => h a (List.mem_cons_of_mem x ha))]

/-- An entry of the accumulated histogram is the initial entry plus the sum
of the per-particle entries. -/
lemma foldl_zipWith_add_getD {α : Type} (f : α → List ℕ) (n : ℕ)
    (hf : ∀ a, (f a).length = n) (A : List α) (h0 : List ℕ)
    (h0len : h0.length = n) (k : ℕ) (hk : k < n) :
    (A.foldl (fun h a => List.zipWith (fun x y => x + y) h (f a)) h0).getD k 0 =
      h0.getD k 0 + (A.map (fun a => (f a).getD k 0)).sum := by
  induction A generalizing h0 with
  | nil => simp
  | cons a as ih =>
      simp only [List.foldl_cons, List.map_cons, List.sum_cons]
      rw [ih (List.zipWith (fun x y => x + y) h0 (f a))
        (by rw [List.length_zipWith, h0len, hf a, Nat.min_self]),
        getD_zipWith_nat h0 (f a) k (h0len ▸ hk) ((hf a) ▸ hk)]
      ring

/-- The per-particle counts over `B` summed over `A` count all pairs. -/
lemma countP_allPairs (A B : List Vec3) (p : Vec3 × Vec3 → Bool) :
    (A.map (fun a => B.countP (fun b => p (a, b)))).sum =
      (allPairs A B).countP p := by
  induction A with
  | nil => rfl
  | cons a as ih =>
      unfold allPairs at ih ⊢
      simp only [List.flatMap_cons, List.countP_append, List.map_cons,
        List.sum_cons, List.countP_map]
      rw [← ih]
      rfl

/-- Bin edges are nonnegative for a nonnegative maximum distance. -/
lemma binEdge_nonneg (n : ℕ) (rmax : ℚ) (k : ℕ) (hr : 0 ≤ rmax) :
    0 ≤ binEdge n rmax k := by
  unfold binEdge
  positivity

/-- Interior bin edges are positive when the bin grid is nondegenerate. -/
lemma binEdge_pos (n : ℕ) (rmax : ℚ) (k : ℕ) (hn : 0 < n) (hr : 0 < rmax)
    (hk : 0 < k) : 0 < binEdge n rmax k := by
  unfold binEdge
  have h1 : (0 : ℚ) < (k : ℚ) := by exact_mod_cast hk
  have h2 : (0 : ℚ) < (n : ℚ) := by exact_mod_cast hn
  positivity

/-- Squared norms are nonnegative. -/
lemma sumSqV3_nonneg (v : Vec3) : 0 ≤ sumSqV3 v := by
  unfold sumSqV3
  positivity

open Classical in
/-- Binning a squared distance against squared edges is binning the true
distance against the edges. -/
lemma inBinSq_eq_decide_inBinDist (n : ℕ) (rmax : ℚ) (k : ℕ) (s : ℚ)
    (hr : 0 ≤ rmax) (hs : 0 ≤ s) :
    inBinSq n rmax k s = decide (inBinDist n rmax k (Real.sqrt ((s : ℚ) : ℝ))) := by
  unfold inBinSq inBinDist
  rw [decide_eq_decide]
  have hs' : (0 : ℝ) ≤ ((s : ℚ) : ℝ) := by exact_mod_cast hs
  have he1 : (0 : ℝ) ≤ ((binEdge n rmax k : ℚ) : ℝ) := by
    exact_mod_cast binEdge_nonneg n rmax k hr
  have he2 : (0 : ℝ) ≤ ((binEdge n rmax (k + 1) : ℚ) : ℝ) := by
    exact_mod_cast binEdge_nonneg n rmax (k + 1) hr
  refine and_congr ?_ ?_
  · rw [Real.le_sqrt he1 hs']
    constructor
    · intro h; exact_mod_cast h
    · intro h; exact_mod_cast h
  · by_cases hkn : k + 1 = n
    · simp only [if_pos hkn]
      rw [Real.sqrt_le_left he2]
      constructor
      · intro h; exact_mod_cast h
      · intro h; exact_mod_cast h
    · simp only [if_neg hkn]
      rw [Real.sqrt_lt hs' he2]
      constructor
      · intro h; exact_mod_cast h
      · intro h; exact_mod_cast h

/-- The sliver counted by `numpy.histogram(0, bins)` never reaches a bin of
positive index. -/
lemma inBinSq_zero_eq_false (n : ℕ) (rmax : ℚ) (k : ℕ) (hn : 0 < n)
    (hr : 0 < rmax) (hk : 0 < k) : inBinSq n rmax k 0 = false := by
  unfold inBinSq
  rw [decide_eq_false_iff_not]
  rintro ⟨h1, -⟩
  have hpos : 0 < (binEdge n rmax k) ^ 2 :=
    pow_pos (binEdge_pos n rmax k hn hr hk) 2
  exact absurd h1 (not_le_of_lt hpos)

/-- An entry of the per-distance-list histogram. -/
lemma histSq_getD (n : ℕ) (rmax : ℚ) (svals : List ℚ) (k : ℕ) (hk : k < n) :
    (histSq n rmax svals).getD k 0 = svals.countP (inBinSq n rmax k) := by
  unfold histSq
  rw [getD_map_gen (List.range n) _ k (by simpa using hk) 0 0,
    getD_range_nat n k hk 0]

/-- A fold appending one value per element flattens to a map. -/
lemma foldl_append_singleton {α β : Type} (h : α → β) (l : List α) (acc : List β) :
    l.foldl (fun a x => a ++ [h x]) acc = acc ++ l.map h := by
  induction l generalizing acc with
  | nil => simp
  | cons x xs ih => simp [ih]

/-- The collected `rg2` list is the flattening of the per-frame, per-polymer
samples in order. -/
lemma rg2List_eq_bind (traj : List PolyFrame) :
    rg2List traj =
      traj.flatMap (fun f => f.polymers.map (fun p => Rg2sample f.box p)) := by
  unfold rg2List
  suffices h : ∀ acc : List ℚ,
      traj.foldl
        (fun acc f => f.polymers.foldl (fun acc2 p => acc2 ++ [Rg2sample f.box p]) acc)
        acc =
      acc ++ traj.flatMap (fun f => f.polymers.map (fun p => Rg2sample f.box p)) by
    simpa using h []
  induction traj with
  | nil => intro acc; simp
  | cons f fs ih =>
      intro acc
      simp only [List.foldl_cons, List.flatMap_cons]
      rw [foldl_append_singleton, ih, List.append_assoc]

/-- Closed form for the componentwise fold defining `sumV3`. -/
lemma foldl_addV3 (l : List Vec3) (a : Vec3) :
    l.foldl addV3 a =
      (a.1 + (l.map (fun p => p.1)).sum,
       a.2.1 + (l.map (fun p => p.2.1)).sum,
       a.2.2 + (l.map (fun p => p.2.2)).sum) := by
  induction l generalizing a with
  | nil => simp
  | cons x xs ih =>
      simp only [List.foldl_cons, List.map_cons, List.sum_cons, ih, addV3]
      refine Prod.ext ?_ (Prod.ext ?_ ?_) <;> simp <;> ring

/-- Subtracting a constant from every projected entry shifts the sum by
`length` times the constant. -/
lemma sum_map_sub_const (v : List Vec3) (proj : Vec3 → ℚ) (c : ℚ) :
    (v.map (fun x => proj x - c)).sum = (v.map proj).sum - v.length * c := by
  induction v with
  | nil => simp
  | cons x xs ih =>
      simp only [List.map_cons, List.sum_cons, List.length_cons, ih]
      push_cast
      ring

/-- Componentwise sums of the mean-subtracted velocities vanish when the
particle count is nonzero. -/
lemma zeroMeanVelocity_proj_sum (v : List Vec3) (hv : 1 ≤ v.length)
    (proj : Vec3 → ℚ)
    (hproj : ∀ a b : Vec3, proj (subV3 a b) = proj a - proj b)
    (hmean : proj (meanV3 v) = meanQ (v.map proj)) :
    ((zeroMeanVelocity v).map proj).sum = 0 := by
  have hlen : ((v.length : ℚ)) ≠ 0 := by
    have : (0 : ℚ) < (v.length : ℚ) := by exact_mod_cast hv
    exact ne_of_gt this
  unfold zeroMeanVelocity
  rw [List.map_map]
  have hcongr :
      (v.map (proj ∘ fun x => subV3 x (meanV3 v))).sum =
        (v.map (fun x => proj x - proj (meanV3 v))).sum := by
    refine congrArg List.sum (List.map_congr_left (fun x _ => ?_))
    simp [Function.comp, hproj]
  rw [hcongr, sum_map_sub_const, hmean]
  unfold meanQ
  field_simp

/-- Claim C3: every entry of the diffusion measurement array satisfies
`D[i] = (msd2 - msd1) / (6 * sample_time)`, where `msd1` and `msd2` are the
means over all MPCD particles of the squared box-wrapped displacements of
the positions `r1` and `r2` from the positions `r0` recorded at the start of
the sample, and the reported `D_sim` is the arithmetic mean of the
`num_samples` values of `D`. -/
theorem C3_diffusion_samples {S : Type} (runSim : ℕ → S → S)
    (posOf : S → List Vec3) (boxOf : S → Vec3)
    (num_samples waitSteps sampleSteps : ℕ) (sample_time : ℚ) (s0 : S) :
    ((diffusionLoop runSim posOf boxOf num_samples waitSteps sampleSteps
        sample_time s0).2 =
      (List.range num_samples).map
        (specDiffusionSample runSim posOf boxOf waitSteps sampleSteps sample_time s0)) ∧
    D_sim runSim posOf boxOf num_samples waitSteps sampleSteps sample_time s0 =
      ((List.range num_samples).map
        (specDiffusionSample runSim posOf boxOf waitSteps sampleSteps sample_time s0)).sum /
        (num_samples : ℚ) := by
  have h := diffusionLoop_closed runSim posOf boxOf num_samples waitSteps
    sampleSteps sample_time s0
  constructor
  · rw [h]
  · unfold D_sim meanQ
    rw [h]
    simp

/-- Claim C5: after the production sampling loop with `num_samples ≥ 1` and
samples all shaped like the first one, `avg_velocity_field` is the
arithmetic mean of the sampled arrays: entrywise, it is the elementwise sum
of the `num_samples` samples divided by `num_samples`, and it has the shape
of the first sample (the accumulator created on the first iteration). -/
theorem C5_avg_velocity_field {S : Type} (runStep : S → S)
    (velOf : S → List Vec3) (num_samples : ℕ) (s0 : S)
    (hn : 1 ≤ num_samples)
    (hlen : ∀ i < num_samples, (sampleAt runStep velOf s0 i).length =
      (sampleAt runStep velOf s0 0).length) :
    ((avgVelocityLoop runStep velOf num_samples s0).2.length =
      (sampleAt runStep velOf s0 0).length) ∧
    (∀ j, j < (sampleAt runStep velOf s0 0).length →
      (avgVelocityLoop runStep velOf num_samples s0).2.getD j
          ((0 : ℚ), (0 : ℚ), (0 : ℚ)) =
        (let t := sumV3 ((List.range num_samples).map
          (fun i => (sampleAt runStep velOf s0 i).getD j ((0 : ℚ), (0 : ℚ), (0 : ℚ))))
         (t.1 / (num_samples : ℚ), t.2.1 / (num_samples : ℚ),
          t.2.2 / (num_samples : ℚ)))) := by
  have hclosed := avgVelocityLoop_closed runStep velOf num_samples hn s0
  have h2 : (avgVelocityLoop runStep velOf num_samples s0).2 =
      (specVelSum runStep velOf s0 num_samples).map (fun x =>
        (x.1 / (num_samples : ℚ), x.2.1 / (num_samples : ℚ),
          x.2.2 / (num_samples : ℚ))) := by
    unfold avgVelocityLoop
    rw [hclosed]
  constructor
  · rw [h2, List.length_map]
    exact specVelSum_length runStep velOf s0 num_samples hlen
  · intro j hj
    rw [h2, getD_map_vec _ _ j
      (by rw [specVelSum_length runStep velOf s0 num_samples hlen]; exact hj),
      specVelSum_getD runStep velOf s0 num_samples j hlen hj]

/-- Witness for C5: two samples of a constant one-entry velocity field on the
state space `ℕ` with the engine modelled as the successor function,
instantiated at the entry `j = 0`. -/
theorem C5_avg_velocity_field_witness :
    (1 ≤ 2) ∧
    ((avgVelocityLoop Nat.succ (fun _ => [((2 : ℚ), (4 : ℚ), (6 : ℚ))]) 2 0).2.length =
      (sampleAt Nat.succ (fun _ => [((2 : ℚ), (4 : ℚ), (6 : ℚ))]) 0 0).length) ∧
    ((avgVelocityLoop Nat.succ (fun _ => [((2 : ℚ), (4 : ℚ), (6 : ℚ))]) 2 0).2.getD 0
        ((0 : ℚ), (0 : ℚ), (0 : ℚ)) =
      (let t := sumV3 ((List.range 2).map
        (fun i => (sampleAt Nat.succ (fun _ => [((2 : ℚ), (4 : ℚ), (6 : ℚ))]) 0 i).getD 0
          ((0 : ℚ), (0 : ℚ), (0 : ℚ))))
       (t.1 / ((2 : ℕ) : ℚ), t.2.1 / ((2 : ℕ) : ℚ), t.2.2 / ((2 : ℕ) : ℚ)))) :=
  ⟨by decide,
    (C5_avg_velocity_field Nat.succ (fun _ => [((2 : ℚ), (4 : ℚ), (6 : ℚ))]) 2 0
      (by decide) (fun i _ => rfl)).1,
    (C5_avg_velocity_field Nat.succ (fun _ => [((2 : ℚ), (4 : ℚ), (6 : ℚ))]) 2 0
      (by decide) (fun i _ => rfl)).2 0 (by decide)⟩

/-- Claim C7: between successive snapshots the repository's measurement
loops change the simulation state only through the external engine's `run`
calls: the state after the diffusion loop is exactly the engine iterate of
its sampling period, and the state after the velocity-field production loop
is exactly the engine iterate of its per-sample run, independent of all the
observations accumulated by the repository code. -/
theorem C7_engine_only_state {S T : Type} (runSim : ℕ → S → S)
    (posOf : S → List Vec3) (boxOf : S → Vec3)
    (num_samples waitSteps sampleSteps : ℕ) (sample_time : ℚ) (s0 : S)
    (runStep : T → T) (velOf : T → List Vec3) (m : ℕ) (t0 : T) :
    ((diffusionLoop runSim posOf boxOf num_samples waitSteps sampleSteps
        sample_time s0).1 =
      (sampleAdvance runSim waitSteps sampleSteps)^[num_samples] s0) ∧
    ((avgVelocityLoop runStep velOf m t0).1 = runStep^[m] t0) := by
  constructor
  · rw [diffusionLoop_closed]
  · unfold avgVelocityLoop
    rw [foldl_fst (fun s _ => runStep s)
      (fun st i =>
        let s := runStep st.1
        let sample := velOf s
        if i = 0 then
          List.zipWith addV3
            (List.replicate sample.length ((0 : ℚ), (0 : ℚ), (0 : ℚ))) sample
        else List.zipWith addV3 st.2 sample)]
    exact foldl_range_const runStep m t0

/-- Claim C8: for every frame with bonds, `render` draws a cylinder for a
bond `(i, j)` if and only if the Euclidean distance between the stored
positions of particles `i` and `j` is strictly less than `L/2`, where `L` is
the first box dimension; every bond whose endpoint distance is at least
`L/2` is silently omitted from the rendering. -/
theorem C8_bond_filter (L : ℚ) (positions : List Vec3)
    (bonds : List (ℕ × ℕ)) (hL : 0 < L) :
    ∀ b ∈ bonds,
      (b ∈ filtered_bonds L positions bonds ↔
        bondLength positions b < (L : ℝ) / 2) ∧
      (b ∉ filtered_bonds L positions bonds ↔
        (L : ℝ) / 2 ≤ bondLength positions b) := by
  intro b hb
  have hhalf : (0 : ℝ) < (L : ℝ) / 2 := by
    have : (0 : ℝ) < (L : ℝ) := by exact_mod_cast hL
    linarith
  have hkey : b ∈ filtered_bonds L positions bonds ↔
      bondLength positions b < (L : ℝ) / 2 := by
    unfold filtered_bonds bondLength
    rw [List.mem_filter]
    constructor
    · rintro ⟨-, hkept⟩
      have hq := of_decide_eq_true hkept
      rw [Real.sqrt_lt' hhalf]
      calc ((sqDistE (positions.getD b.1 ((0 : ℚ), (0 : ℚ), (0 : ℚ)))
              (positions.getD b.2 ((0 : ℚ), (0 : ℚ), (0 : ℚ))) : ℚ) : ℝ)
          < (((L / 2) ^ 2 : ℚ) : ℝ) := by exact_mod_cast hq
        _ = ((L : ℝ) / 2) ^ 2 := by push_cast; ring
    · intro hlt
      refine ⟨hb, ?_⟩
      unfold bondKept
      rw [decide_eq_true_iff]
      rw [Real.sqrt_lt' hhalf] at hlt
      have : ((sqDistE (positions.getD b.1 ((0 : ℚ), (0 : ℚ), (0 : ℚ)))
            (positions.getD b.2 ((0 : ℚ), (0 : ℚ), (0 : ℚ))) : ℚ) : ℝ) <
          (((L / 2) ^ 2 : ℚ) : ℝ) := by
        calc ((sqDistE (positions.getD b.1 ((0 : ℚ), (0 : ℚ), (0 : ℚ)))
                (positions.getD b.2 ((0 : ℚ), (0 : ℚ), (0 : ℚ))) : ℚ) : ℝ)
            < ((L : ℝ) / 2) ^ 2 := hlt
          _ = (((L / 2) ^ 2 : ℚ) : ℝ) := by push_cast; ring
      exact_mod_cast this
  refine ⟨hkey, ?_⟩
  rw [hkey]
  exact not_lt

/-- Witness for C8 on a concrete three-particle frame with one bond in a box
with `L = 10`, instantiated at the bond `(0, 1)`. -/
theorem C8_bond_filter_witness :
    (0 : ℚ) < 10 ∧
    ((((0 : ℕ), (1 : ℕ)) ∈ filtered_bonds 10
        [((0 : ℚ), (0 : ℚ), (0 : ℚ)), ((3 : ℚ), (0 : ℚ), (0 : ℚ))]
        [((0 : ℕ), (1 : ℕ))] ↔
      bondLength [((0 : ℚ), (0 : ℚ), (0 : ℚ)), ((3 : ℚ), (0 : ℚ), (0 : ℚ))]
        ((0 : ℕ), (1 : ℕ)) < ((10 : ℚ) : ℝ) / 2) ∧
    (((0 : ℕ), (1 : ℕ)) ∉ filtered_bonds 10
        [((0 : ℚ), (0 : ℚ), (0 : ℚ)), ((3 : ℚ), (0 : ℚ), (0 : ℚ))]
        [((0 : ℕ), (1 : ℕ))] ↔
      ((10 : ℚ) : ℝ) / 2 ≤ bondLength
        [((0 : ℚ), (0 : ℚ), (0 : ℚ)), ((3 : ℚ), (0 : ℚ), (0 : ℚ))]
        ((0 : ℕ), (1 : ℕ)))) :=
  ⟨by norm_num,
    C8_bond_filter 10 [((0 : ℚ), (0 : ℚ), (0 : ℚ)), ((3 : ℚ), (0 : ℚ), (0 : ℚ))]
      [((0 : ℕ), (1 : ℕ))] (by norm_num) ((0 : ℕ), (1 : ℕ)) (by decide)⟩

/-- Claim C4: for `1 ≤ num_blocks ≤ len(data)`, `block_average` returns the
mean of the means of the `num_blocks` consecutive blocks of size
`len(data) / num_blocks` taken from the front of the data, together with the
sample standard deviation (`ddof = 1`) of those block means divided by
`sqrt(num_blocks)`; the result depends only on the front
`num_blocks * block_size` elements, so trailing elements beyond them never
affect it. -/
theorem C4_block_average (data : List ℚ) (num_blocks : ℕ)
    (h1 : 1 ≤ num_blocks) (h2 : num_blocks ≤ data.length) :
    ((block_average data num_blocks).1 =
      meanQ ((specBlocks data num_blocks (data.length / num_blocks)).map meanQ)) ∧
    ((block_average data num_blocks).2 =
      Real.sqrt ((sampleVarQ
          ((specBlocks data num_blocks (data.length / num_blocks)).map meanQ) : ℚ) : ℝ) /
        Real.sqrt ((num_blocks : ℕ) : ℝ)) ∧
    (∀ data2 : List ℚ, data2.length = data.length →
      data2.take (num_blocks * (data.length / num_blocks)) =
        data.take (num_blocks * (data.length / num_blocks)) →
      block_average data2 num_blocks = block_average data num_blocks) := by
  have hblocks : ∀ d : List ℚ,
      reshapeRows (d.length / num_blocks) num_blocks
          (d.take (num_blocks * (d.length / num_blocks))) =
        specBlocks d num_blocks (d.length / num_blocks) := by
    intro d
    rw [reshapeRows_eq_spec, specBlocks_take]
  refine ⟨?_, ?_, ?_⟩
  · simp only [block_average]
    rw [hblocks data]
  · simp only [block_average]
    rw [hblocks data]
  · intro data2 hlen htake
    simp only [block_average]
    rw [hlen, htake]

/-- Witness for C4 on a concrete seven-element series split into two blocks
of three, instantiated at a second series differing only in the unused
trailing element. -/
theorem C4_block_average_witness :
    (1 ≤ 2 ∧ 2 ≤ ([(1 : ℚ), 2, 3, 4, 5, 6, 100] : List ℚ).length) ∧
    ((block_average [(1 : ℚ), 2, 3, 4, 5, 6, 100] 2).1 =
      meanQ ((specBlocks [(1 : ℚ), 2, 3, 4, 5, 6, 100] 2
        (([(1 : ℚ), 2, 3, 4, 5, 6, 100] : List ℚ).length / 2)).map meanQ)) ∧
    ((block_average [(1 : ℚ), 2, 3, 4, 5, 6, 100] 2).2 =
      Real.sqrt ((sampleVarQ ((specBlocks [(1 : ℚ), 2, 3, 4, 5, 6, 100] 2
          (([(1 : ℚ), 2, 3, 4, 5, 6, 100] : List ℚ).length / 2)).map meanQ) : ℚ) : ℝ) /
        Real.sqrt (((2 : ℕ) : ℕ) : ℝ)) ∧
    block_average [(1 : ℚ), 2, 3, 4, 5, 6, 999] 2 =
      block_average [(1 : ℚ), 2, 3, 4, 5, 6, 100] 2 :=
  ⟨⟨by decide, by decide⟩,
    (C4_block_average [(1 : ℚ), 2, 3, 4, 5, 6, 100] 2 (by decide) (by decide)).1,
    (C4_block_average [(1 : ℚ), 2, 3, 4, 5, 6, 100] 2 (by decide) (by decide)).2.1,
    (C4_block_average [(1 : ℚ), 2, 3, 4, 5, 6, 100] 2 (by decide) (by decide)).2.2
      [(1 : ℚ), 2, 3, 4, 5, 6, 999] (by decide) (by decide)⟩

/-- Claim C1: `pair_corr` returns the bin centres computed from the
`numpy.linspace(0, rmax, number_of_bins + 1)` edges together with a
histogram of length `number_of_bins` whose first entry is 0 and whose entry
`k > 0` is the number of pairs `(a, b)`, `a` in `A` and `b` in `B`
(accumulated one `A`-particle at a time), whose periodic minimum-image
distance falls in bin `k`, normalized by the `norm` function evaluated at
the bin centre. -/
theorem C1_pair_corr (A B : List Vec3) (Box : Vec3) (number_of_bins : ℕ)
    (rmax : ℚ) (nf : ℚ → ℚ) (hn : 0 < number_of_bins) (hr : 0 < rmax) :
    (pair_corr A B Box number_of_bins rmax nf).1 =
      (List.range number_of_bins).map (fun k =>
        (binEdge number_of_bins rmax k + binEdge number_of_bins rmax (k + 1)) / 2) ∧
    (pair_corr A B Box number_of_bins rmax nf).2.length = number_of_bins ∧
    (pair_corr A B Box number_of_bins rmax nf).2.getD 0 0 = 0 ∧
    (∀ k, 0 < k → k < number_of_bins →
      (pair_corr A B Box number_of_bins rmax nf).2.getD k 0 =
        (pairBinCount A B Box number_of_bins rmax k : ℚ) /
          nf ((binEdge number_of_bins rmax k +
            binEdge number_of_bins rmax (k + 1)) / 2)) := by
  set n := number_of_bins with hn_def
  have hcenters : (pair_corr A B Box n rmax nf).1 =
      (List.range n).map (fun k => (binEdge n rmax k + binEdge n rmax (k + 1)) / 2) := rfl
  refine ⟨hcenters, ?_, ?_, ?_⟩
  · simp [pair_corr]
  · simp only [pair_corr]
    rw [getD_map_gen (List.range n) _ 0 (by simpa using hn) 0 0,
      getD_range_nat n 0 hn 0]
    simp
  · intro k hk0 hkn
    have hknz : k ≠ 0 := Nat.pos_iff_ne_zero.mp hk0
    -- entry k of the normalized histogram
    simp only [pair_corr]
    rw [getD_map_gen (List.range n) _ k (by simpa using hkn) 0 0,
      getD_range_nat n k hkn 0, if_neg hknz,
      getD_map_gen (List.range n) _ k (by simpa using hkn) 0 0,
      getD_range_nat n k hkn 0]
    -- entry k of the accumulated histogram
    have hlenf : ∀ a : Vec3,
        (histSq n rmax (B.map (fun b => distSqPBC Box a b))).length = n := by
      intro a; simp [histSq]
    have hlen0 : (histSq n rmax [0]).length = n := by simp [histSq]
    rw [foldl_zipWith_add_getD _ n hlenf A _ hlen0 k hkn]
    -- the initialization artifact contributes nothing to bins k > 0
    have hinit : (histSq n rmax [0]).getD k 0 = 0 := by
      rw [histSq_getD n rmax [0] k hkn, List.countP_singleton,
        inBinSq_zero_eq_false n rmax k hn hr hk0]
      rfl
    rw [hinit, Nat.zero_add]
    -- per-particle histograms count distances to B, summed over A they
    -- count all pairs
    have hterm : ∀ a : Vec3,
        (histSq n rmax (B.map (fun b => distSqPBC Box a b))).getD k 0 =
          B.countP (fun b => inBinSq n rmax k (distSqPBC Box a b)) := by
      intro a
      rw [histSq_getD n rmax _ k hkn, List.countP_map]
      rfl
    have hmapc : (A.map (fun a =>
        (histSq n rmax (B.map (fun b => distSqPBC Box a b))).getD k 0)).sum =
        (A.map (fun a =>
          B.countP (fun b => inBinSq n rmax k (distSqPBC Box a b)))).sum := by
      refine congrArg List.sum (List.map_congr_left (fun a _ => hterm a))
    rw [hmapc, countP_allPairs A B
      (fun p => inBinSq n rmax k (distSqPBC Box p.1 p.2))]
    -- binning squared distances is binning the true distances
    have hcount : (allPairs A B).countP
        (fun p => inBinSq n rmax k (distSqPBC Box p.1 p.2)) =
        pairBinCount A B Box n rmax k := by
      unfold pairBinCount
      refine countP_congr_eq (allPairs A B) _ _ (fun p _ => ?_)
      rw [inBinSq_eq_decide_inBinDist n rmax k (distSqPBC Box p.1 p.2)
        (le_of_lt hr) (sumSqV3_nonneg _)]
      rfl
    rw [hcount]

/-- Witness for C1 on a concrete one-pair system with 2 bins on `[0, 2]`,
the trivial normalization, and the box `(10, 10, 10)`, instantiated at
bin `k = 1`. -/
theorem C1_pair_corr_witness :
    (0 < 2 ∧ (0 : ℚ) < 2) ∧
    ((pair_corr [((0 : ℚ), (0 : ℚ), (0 : ℚ))] [((0 : ℚ), (0 : ℚ), (1 : ℚ))]
        ((10 : ℚ), (10 : ℚ), (10 : ℚ)) 2 2 (fun _ => 1)).1 =
      (List.range 2).map (fun k => (binEdge 2 2 k + binEdge 2 2 (k + 1)) / 2)) ∧
    ((pair_corr [((0 : ℚ), (0 : ℚ), (0 : ℚ))] [((0 : ℚ), (0 : ℚ), (1 : ℚ))]
        ((10 : ℚ), (10 : ℚ), (10 : ℚ)) 2 2 (fun _ => 1)).2.length = 2) ∧
    ((pair_corr [((0 : ℚ), (0 : ℚ), (0 : ℚ))] [((0 : ℚ), (0 : ℚ), (1 : ℚ))]
        ((10 : ℚ), (10 : ℚ), (10 : ℚ)) 2 2 (fun _ => 1)).2.getD 0 0 = 0) ∧
    ((pair_corr [((0 : ℚ), (0 : ℚ), (0 : ℚ))] [((0 : ℚ), (0 : ℚ), (1 : ℚ))]
        ((10 : ℚ), (10 : ℚ), (10 : ℚ)) 2 2 (fun _ => 1)).2.getD 1 0 =
      (pairBinCount [((0 : ℚ), (0 : ℚ), (0 : ℚ))] [((0 : ℚ), (0 : ℚ), (1 : ℚ))]
          ((10 : ℚ), (10 : ℚ), (10 : ℚ)) 2 2 1 : ℚ) /
        (fun _ => (1 : ℚ)) ((binEdge 2 2 1 + binEdge 2 2 2) / 2)) :=
  ⟨⟨by decide, by norm_num⟩,
    (C1_pair_corr [((0 : ℚ), (0 : ℚ), (0 : ℚ))] [((0 : ℚ), (0 : ℚ), (1 : ℚ))]
      ((10 : ℚ), (10 : ℚ), (10 : ℚ)) 2 2 (fun _ => 1) (by decide) (by norm_num)).1,
    (C1_pair_corr [((0 : ℚ), (0 : ℚ), (0 : ℚ))] [((0 : ℚ), (0 : ℚ), (1 : ℚ))]
      ((10 : ℚ), (10 : ℚ), (10 : ℚ)) 2 2 (fun _ => 1) (by decide) (by norm_num)).2.1,
    (C1_pair_corr [((0 : ℚ), (0 : ℚ), (0 : ℚ))] [((0 : ℚ), (0 : ℚ), (1 : ℚ))]
      ((10 : ℚ), (10 : ℚ), (10 : ℚ)) 2 2 (fun _ => 1) (by decide) (by norm_num)).2.2.1,
    (C1_pair_corr [((0 : ℚ), (0 : ℚ), (0 : ℚ))] [((0 : ℚ), (0 : ℚ), (1 : ℚ))]
      ((10 : ℚ), (10 : ℚ), (10 : ℚ)) 2 2 (fun _ => 1) (by decide) (by norm_num)).2.2.2
      1 (by decide) (by decide)⟩

/-- Claim C2: for every trajectory frame and every polymer in it, the
collected `Rg2` sample is the mean over the polymer's monomers of the
squared Euclidean distance from the monomer's unwrapped position (stored
position plus image times the box lengths) to the polymer's centre of mass
(the coordinate-wise mean of the unwrapped positions); the collected list
is exactly these samples in order, and the reported `av_Rg` is the square
root of the mean of all collected `Rg2` samples. -/
theorem C2_radius_of_gyration (traj : List PolyFrame) :
    (∀ (box : Vec3) (poly : List (Vec3 × (ℤ × ℤ × ℤ))),
      Rg2sample box poly = specRg2 box poly) ∧
    rg2List traj =
      traj.flatMap (fun f => f.polymers.map (fun p => specRg2 f.box p)) ∧
    av_Rg traj =
      Real.sqrt ((meanQ
        (traj.flatMap (fun f => f.polymers.map (fun p => specRg2 f.box p))) : ℚ) : ℝ) := by
  have hsample : ∀ (box : Vec3) (poly : List (Vec3 × (ℤ × ℤ × ℤ))),
      Rg2sample box poly = specRg2 box poly := by
    intro box poly
    simp only [Rg2sample, specRg2, sqDistE, List.map_map]
    rfl
  have hbind : traj.flatMap (fun f => f.polymers.map (fun p => Rg2sample f.box p)) =
      traj.flatMap (fun f => f.polymers.map (fun p => specRg2 f.box p)) := by
    refine congrArg _ (funext (fun f => ?_))
    exact List.map_congr_left (fun p _ => hsample f.box p)
  refine ⟨hsample, ?_, ?_⟩
  · rw [rg2List_eq_bind, hbind]
  · unfold av_Rg
    rw [rg2List_eq_bind, hbind]

/-- Claim C6: the viscosity fit model is a one-parameter line through the
origin: for every `y` and every `mu ≠ 0`, `line y mu = -(density * fx / mu) * y`,
`line 0 mu = 0`, and `line` is odd in `y`.  `mu` is the model's only
parameter besides the independent variable `y`, so it is the single free
fitting parameter `scipy.optimize.curve_fit` estimates. -/
theorem C6_line_model (mu : ℚ) (hmu : mu ≠ 0) :
    (∀ y : ℚ, line y mu = -(density * fx / mu) * y) ∧
      line 0 mu = 0 ∧ (∀ y : ℚ, line (-y) mu = -line y mu) := by
  refine ⟨fun y => rfl, ?_, fun y => ?_⟩
  · simp [line]
  · unfold line; ring

/-- Witness for C6 at the concrete parameter `mu = 2` and `y = 3`. -/
theorem C6_line_model_witness :
    (2 : ℚ) ≠ 0 ∧
      line 3 2 = -(density * fx / 2) * 3 ∧
      line 0 2 = 0 ∧
      line (-3) 2 = -line 3 2 :=
  ⟨by norm_num, (C6_line_model 2 (by norm_num)).1 3,
    (C6_line_model 2 (by norm_num)).2.1, (C6_line_model 2 (by norm_num)).2.2 3⟩

/-- Claim C9: the plotted energy-conservation series
`yval = sqrt((tot_e - mean(tot_e))**2) / mean(tot_e)` equals, elementwise,
the absolute relative deviation `|E(t) - Ebar| / Ebar` with
`Ebar = mean(tot_e)`: it is a per-time-point absolute deviation, not a
deviation averaged over time before the square root is taken. -/
theorem C9_yval_abs_deviation (totE : List ℚ) :
    yval totE =
      totE.map (fun e => |(e : ℝ) - (meanQ totE : ℝ)| / (meanQ totE : ℝ)) := by
  unfold yval
  refine List.map_congr_left (fun e _ => ?_)
  rw [Real.sqrt_sq_eq_abs]

/-- Claim C10: after subtracting the componentwise mean, the MPCD snapshot
velocities have componentwise sum and mean exactly zero (in exact
arithmetic) for every particle count `N ≥ 1` and every drawn velocity
array. -/
theorem C10_zero_net_momentum (v : List Vec3) (hv : 1 ≤ v.length) :
    sumV3 (zeroMeanVelocity v) = (0, 0, 0) ∧
      meanV3 (zeroMeanVelocity v) = (0, 0, 0) := by
  have h1 : ((zeroMeanVelocity v).map (fun p => p.1)).sum = 0 :=
    zeroMeanVelocity_proj_sum v hv (fun p => p.1) (fun a b => rfl) rfl
  have h2 : ((zeroMeanVelocity v).map (fun p => p.2.1)).sum = 0 :=
    zeroMeanVelocity_proj_sum v hv (fun p => p.2.1) (fun a b => rfl) rfl
  have h3 : ((zeroMeanVelocity v).map (fun p => p.2.2)).sum = 0 :=
    zeroMeanVelocity_proj_sum v hv (fun p => p.2.2) (fun a b => rfl) rfl
  constructor
  · unfold sumV3
    rw [foldl_addV3]
    rw [h1, h2, h3]
    simp
  · unfold meanV3 meanQ
    rw [h1, h2, h3]
    simp

/-- Witness for C10 at a concrete two-particle velocity array. -/
theorem C10_zero_net_momentum_witness :
    1 ≤ ([((1 : ℚ), (2 : ℚ), (3 : ℚ)), ((5 : ℚ), (0 : ℚ), (-1 : ℚ))] : List Vec3).length ∧
      (sumV3 (zeroMeanVelocity [((1 : ℚ), (2 : ℚ), (3 : ℚ)), ((5 : ℚ), (0 : ℚ), (-1 : ℚ))]) = (0, 0, 0) ∧
        meanV3 (zeroMeanVelocity [((1 : ℚ), (2 : ℚ), (3 : ℚ)), ((5 : ℚ), (0 : ℚ), (-1 : ℚ))]) = (0, 0, 0)) :=
  ⟨by decide,
    C10_zero_net_momentum [((1 : ℚ), (2 : ℚ), (3 : ℚ)), ((5 : ℚ), (0 : ℚ), (-1 : ℚ))] (by decide)⟩
